import Mathlib

/-!
Verification of `vtoolbox/mdof.py` against its design specification.

The module under verification has three functions:

* `eigen (A, B=None)` — computes a (possibly generalized) eigen-decomposition
  via `scipy.linalg.eig` and re-orders the eigenpairs under a canonical policy
  (mdof.py lines 42-61);
* `modes_system_undamped (M, K)` — Cholesky-whitens the generalized problem,
  sorts the whitened eigen-decomposition with `eigen`, and forms mode shapes
  (mdof.py lines 99-105);
* `response_system_undamped (M, K, x0, v0, max_time)` — builds a state-space
  matrix, discretizes with one matrix exponential and iterates it over a fixed
  time grid (mdof.py lines 151-172).

The dense eigensolver (`scipy.linalg.eig`) and the matrix exponential
(`scipy.linalg.expm`) and pseudo-inverse (`scipy.linalg.pinv`) are external
opaque services per the design document (its section 6); they appear here as
function parameters ("oracles"), and the raw eigen-decomposition is the input
of the sorting core.  Machine floats are modelled by exact rationals.  numpy's
`argsort` is modelled as a stable sort on (value, original index); no claim
checked here depends on the order of tied keys.
-/

namespace Mdof

/-- A complex scalar with rational real and imaginary parts, modelling the
complex floats that populate numpy arrays in `mdof.py`. -/
structure CQ where
  re : ℚ
  im : ℚ
deriving DecidableEq

/-- The zero used as the out-of-range default when indexing eigenvalue
arrays (never actually reached on in-range indices). -/
def czero : CQ := ⟨0, 0⟩

/-! ## The sorting core of `eigen` (mdof.py lines 47-61)

`evalues.real.argsort()` / `evalues.imag.argsort()` rank the eigenvalues by
a rational key.  We model `argsort` by a stable insertion sort on the
index-decorated list: the comparison is lexicographic on (key, index). -/

/-- Comparison used to model `argsort`: order by the rational key, ties by
the original position (stability). -/
def rankLe (key : CQ → ℚ) (p q : ℕ × CQ) : Prop :=
  key p.2 < key q.2 ∨ (key p.2 = key q.2 ∧ p.1 ≤ q.1)

instance (key : CQ → ℚ) : DecidableRel (rankLe key) := fun p q => by
  unfold rankLe; infer_instance

instance (key : CQ → ℚ) : IsTotal (ℕ × CQ) (rankLe key) where
  total p q := by
    unfold rankLe
    rcases lt_trichotomy (key p.2) (key q.2) with h | h | h
    · exact Or.inl (Or.inl h)
    · rcases Nat.le_total p.1 q.1 with h1 | h1
      · exact Or.inl (Or.inr ⟨h, h1⟩)
      · exact Or.inr (Or.inr ⟨h.symm, h1⟩)
    · exact Or.inr (Or.inl h)

instance (key : CQ → ℚ) : IsTrans (ℕ × CQ) (rankLe key) where
  trans p q r hpq hqr := by
    unfold rankLe at *
    rcases hpq with h1 | ⟨h1, h1'⟩ <;> rcases hqr with h2 | ⟨h2, h2'⟩
    · exact Or.inl (h1.trans h2)
    · exact Or.inl (h2 ▸ h1)
    · exact Or.inl (h1 ▸ h2)
    · exact Or.inr ⟨h1.trans h2, h1'.trans h2'⟩

/-- Model of `evalues.key.argsort()`: the list of original indices, ordered so
that the keys are ascending (original position breaking ties). -/
def argsortQ (key : CQ → ℚ) (l : List CQ) : List ℕ :=
  (List.insertionSort (rankLe key) l.enum).map Prod.fst

/-- The eigenvalues read off along `argsortQ`, i.e. the list sorted ascending
by `key`. -/
def sortedByKey (key : CQ → ℚ) (l : List CQ) : List CQ :=
  (List.insertionSort (rankLe key) l.enum).map Prod.snd

/-- Model of the Python slice `s[k-1::-1]` with `k = n//2` (mdof.py lines 53
and 57).  For `k ≥ 1` this is `s[:k]` reversed.  For `k = 0` the start index
`k-1 = -1` wraps around to the END of the list, so the slice is the WHOLE list
reversed — this wraparound is what the code actually does for `n = 1`. -/
def pySliceRevFrom (s : List ℕ) (k : ℕ) : List ℕ :=
  if k = 0 then s.reverse else (s.take k).reverse

/-- The real-spectrum branch of `eigen` (mdof.py lines 47-53, "Case 1"):
if all real parts are strictly positive, the plain ascending real-part order
(`idxn` empty); otherwise the upper half `argsort[n//2:]` of the real-part
ranking followed by the Python slice `argsort[n//2-1::-1]`. -/
def realSpectrumOrder (evals : List CQ) : List ℕ :=
  let n := evals.length
  if evals.all fun e => decide (0 < e.re) then
    argsortQ (fun e => e.re) evals
  else
    let s := argsortQ (fun e => e.re) evals
    s.drop (n / 2) ++ pySliceRevFrom s (n / 2)

/-- The complex-spectrum branch of `eigen` (mdof.py lines 55-57, "Case 2"):
the upper half `argsort[n//2:]` of the imaginary-part ranking followed by the
Python slice `argsort[n//2-1::-1]`. -/
def complexSpectrumOrder (evals : List CQ) : List ℕ :=
  let n := evals.length
  let s := argsortQ (fun e => e.im) evals
  s.drop (n / 2) ++ pySliceRevFrom s (n / 2)

/-- The index order chosen by `eigen` (mdof.py lines 47-59): the branch test
is the source's `all(eigs == 0 for eigs in evalues.imag)`, an exact comparison
of every imaginary part with zero. -/
def sortIdx (evals : List CQ) : List ℕ :=
  if evals.all fun e => decide (e.im = 0) then realSpectrumOrder evals
  else complexSpectrumOrder evals

/-- `eigen` (mdof.py lines 42-61) minus the call to the external eigensolver:
it receives the raw (unordered) eigen-decomposition — `evals` the eigenvalues,
`evecs` the eigenvector matrix as its list of columns — and returns
`evalues[idx], evectors[:, idx]` for the index order `sortIdx`. -/
def eigen (evals : List CQ) (evecs : List (List CQ)) :
    List CQ × List (List CQ) :=
  let idx := sortIdx evals
  (idx.map fun i => evals.getD i czero, idx.map fun i => evecs.getD i [])

/-- Modelled from the spec (section 4.1, cases 1b and 2): the split-by-half
ordering policy — "the upper half by ascending rank forms the positive block,
the lower half by descending rank forms the negative block; result = positive
block followed by negative block", halves of size `n/2` by integer
division. -/
def splitHalfRanking (key : CQ → ℚ) (l : List CQ) : List CQ :=
  let s := sortedByKey key l
  s.drop (l.length / 2) ++ (s.take (l.length / 2)).reverse

/-! ### Basic facts about the argsort model -/

theorem argsortQ_map_getD (key : CQ → ℚ) (l : List CQ) (d : CQ) :
    (argsortQ key l).map (fun i => l.getD i d) = sortedByKey key l := by
  unfold argsortQ sortedByKey
  rw [List.map_map]
  refine List.map_congr_left ?_
  intro p hp
  have hmem : p ∈ l.enum :=
    (List.perm_insertionSort (rankLe key) l.enum).subset hp
  have hget : l[p.1]? = some p.2 := List.mem_enum_iff_getElem?.mp hmem
  simp only [Function.comp_apply, List.getD_eq_getElem?_getD, hget,
    Option.getD_some]

theorem sortedByKey_perm (key : CQ → ℚ) (l : List CQ) :
    (sortedByKey key l).Perm l := by
  unfold sortedByKey
  have h := (List.perm_insertionSort (rankLe key) l.enum).map Prod.snd
  rwa [List.enum_map_snd] at h

theorem sortedByKey_sorted (key : CQ → ℚ) (l : List CQ) :
    List.Sorted (fun a b : CQ => key a ≤ key b) (sortedByKey key l) := by
  unfold sortedByKey
  have h := List.sorted_insertionSort (rankLe key) l.enum
  rw [List.Sorted, List.pairwise_map]
  refine h.imp ?_
  intro p q hpq
  rcases hpq with h1 | ⟨h1, _⟩
  · exact le_of_lt h1
  · exact le_of_eq h1

theorem argsortQ_length (key : CQ → ℚ) (l : List CQ) :
    (argsortQ key l).length = l.length := by
  unfold argsortQ
  rw [List.length_map, List.length_insertionSort, List.enum_length]

theorem mem_argsortQ_lt (key : CQ → ℚ) (l : List CQ) {i : ℕ}
    (h : i ∈ argsortQ key l) : i < l.length := by
  unfold argsortQ at h
  obtain ⟨p, hp, rfl⟩ := List.mem_map.mp h
  have hmem : p ∈ l.enum :=
    (List.perm_insertionSort (rankLe key) l.enum).subset hp
  have hget : l[p.1]? = some p.2 := List.mem_enum_iff_getElem?.mp hmem
  exact (List.getElem?_eq_some.mp hget).1

theorem mem_pySliceRevFrom (s : List ℕ) (k : ℕ) {i : ℕ}
    (h : i ∈ pySliceRevFrom s k) : i ∈ s := by
  unfold pySliceRevFrom at h
  by_cases hk : k = 0
  · rw [if_pos hk, List.mem_reverse] at h; exact h
  · rw [if_neg hk, List.mem_reverse] at h; exact List.mem_of_mem_take h

theorem mem_sortIdx_lt (evals : List CQ) {i : ℕ} (h : i ∈ sortIdx evals) :
    i < evals.length := by
  unfold sortIdx realSpectrumOrder complexSpectrumOrder at h
  split at h
  · split at h
    · exact mem_argsortQ_lt _ _ h
    · rcases List.mem_append.mp h with h' | h'
      · exact mem_argsortQ_lt _ _ (List.mem_of_mem_drop h')
      · exact mem_argsortQ_lt _ _ (mem_pySliceRevFrom _ _ h')
  · rcases List.mem_append.mp h with h' | h'
    · exact mem_argsortQ_lt _ _ (List.mem_of_mem_drop h')
    · exact mem_argsortQ_lt _ _ (mem_pySliceRevFrom _ _ h')

theorem half_ne_zero {n : ℕ} (h : 2 ≤ n) : n / 2 ≠ 0 := by omega

/-- For lists of length at least two, the slice pair
`argsort[n//2:] ++ argsort[n//2-1::-1]` read back through the eigenvalue list
is exactly the spec's split-by-half ordering. -/
theorem splitIdx_map_getD (key : CQ → ℚ) (l : List CQ) (d : CQ)
    (h2 : 2 ≤ l.length) :
    ((argsortQ key l).drop (l.length / 2) ++
        pySliceRevFrom (argsortQ key l) (l.length / 2)).map
      (fun i => l.getD i d) = splitHalfRanking key l := by
  unfold pySliceRevFrom splitHalfRanking
  rw [if_neg (half_ne_zero h2), List.map_append, List.map_reverse,
    List.map_take, List.map_drop, argsortQ_map_getD]

theorem all_im_zero_iff (evals : List CQ) :
    (evals.all fun e => decide (e.im = 0)) = true ↔ ∀ e ∈ evals, e.im = 0 := by
  simp

theorem all_re_pos_iff (evals : List CQ) :
    (evals.all fun e => decide (0 < e.re)) = true ↔ ∀ e ∈ evals, 0 < e.re := by
  simp

theorem eigen_fst (evals : List CQ) (evecs : List (List CQ)) :
    (eigen evals evecs).1 = (sortIdx evals).map fun i => evals.getD i czero :=
  rfl

theorem eigen_snd (evals : List CQ) (evecs : List (List CQ)) :
    (eigen evals evecs).2 = (sortIdx evals).map fun i => evecs.getD i [] :=
  rfl

/-! ## Claims about the Eigen-Sorter -/

/-- C1 (amended: for input dimension at least 2).  When the spectrum has a
nonzero imaginary part, `eigen` returns the upper half of the imaginary-part
ranking ascending, then the lower half descending; when the spectrum is
all-real with some non-positive real part, the same split applies with the
real-part ranking. -/
theorem eigen_split_policy (evals : List CQ) (evecs : List (List CQ))
    (h2 : 2 ≤ evals.length) :
    ((∃ e ∈ evals, e.im ≠ 0) →
      (eigen evals evecs).1 = splitHalfRanking (fun e => e.im) evals) ∧
    ((∀ e ∈ evals, e.im = 0) → (∃ e ∈ evals, ¬ 0 < e.re) →
      (eigen evals evecs).1 = splitHalfRanking (fun e => e.re) evals) := by
  constructor
  · rintro ⟨e, he, hne⟩
    have hall : ¬ (evals.all fun e => decide (e.im = 0)) = true := fun hc =>
      hne ((all_im_zero_iff evals).mp hc e he)
    rw [eigen_fst]
    unfold sortIdx
    rw [if_neg hall]
    unfold complexSpectrumOrder
    exact splitIdx_map_getD _ _ _ h2
  · rintro him ⟨e, he, hnre⟩
    have hall : (evals.all fun e => decide (e.im = 0)) = true :=
      (all_im_zero_iff evals).mpr him
    have hpos : ¬ (evals.all fun e => decide (0 < e.re)) = true := fun hc =>
      hnre ((all_re_pos_iff evals).mp hc e he)
    rw [eigen_fst]
    unfold sortIdx
    rw [if_pos hall]
    unfold realSpectrumOrder
    rw [if_neg hpos]
    exact splitIdx_map_getD _ _ _ h2

/-- Witness for C1: the conjugate pair `±2i` is returned positive branch
first; the split-by-half policy evaluated concretely. -/
theorem eigen_split_policy_witness :
    (eigen [⟨0, 2⟩, ⟨0, -2⟩] [[⟨1, 0⟩], [⟨0, 1⟩]]).1 =
      splitHalfRanking (fun e => e.im) [⟨0, 2⟩, ⟨0, -2⟩] :=
  (eigen_split_policy [⟨0, 2⟩, ⟨0, -2⟩] [[⟨1, 0⟩], [⟨0, 1⟩]]
    (by norm_num)).1 ⟨⟨0, 2⟩, by simp, by norm_num⟩

/-- Counterexample to C1 as stated: for the 1×1 matrix `[[i]]` (raw
decomposition: eigenvalue `i` with eigenvector `[1]`), the `n//2 = 0` slice
`argsort[-1::-1]` wraps around to the whole reversed ranking, so the single
eigenpair is returned twice instead of once. -/
theorem eigen_c1_counterexample :
    (eigen [⟨0, 1⟩] [[⟨1, 0⟩]]).1 = [⟨0, 1⟩, ⟨0, 1⟩] ∧
    splitHalfRanking (fun e => e.im) [⟨0, 1⟩] = [⟨0, 1⟩] ∧
    (eigen [⟨0, 1⟩] [[⟨1, 0⟩]]).1 ≠ splitHalfRanking (fun e => e.im) [⟨0, 1⟩] := by
  refine ⟨?_, ?_, ?_⟩ <;>
    norm_num [eigen, sortIdx, complexSpectrumOrder, argsortQ, sortedByKey,
      splitHalfRanking, pySliceRevFrom, List.insertionSort,
      List.orderedInsert, rankLe, czero]

/-- C4 (code bug): sorting the raw decomposition of the 1×1 matrix `[[-1]]`
(eigenvalue `-1`, eigenvector `[1]`) returns TWO eigenpairs: the index list
degenerates to `[0, 0]` because the Python slice `argsort[n//2-1::-1]` starts
at `-1` when `n = 1` and wraps around, duplicating the eigenpair instead of
preserving the count. -/
theorem eigen_single_negative_duplicates :
    eigen [⟨-1, 0⟩] [[⟨1, 0⟩]] =
      ([⟨-1, 0⟩, ⟨-1, 0⟩], [[⟨1, 0⟩], [⟨1, 0⟩]]) ∧
    (eigen [⟨-1, 0⟩] [[⟨1, 0⟩]]).1.length ≠ ([⟨-1, 0⟩] : List CQ).length := by
  constructor <;>
    norm_num [eigen, sortIdx, realSpectrumOrder, argsortQ,
      pySliceRevFrom, List.insertionSort, List.orderedInsert, rankLe, czero]

/-- C5: both output components of `eigen` are read off along one and the same
index list, so output eigenvalue `i` and output eigenvector column `i` come
from a common position `j` of the raw decomposition. -/
theorem eigen_copermutation (evals : List CQ) (evecs : List (List CQ)) :
    (eigen evals evecs).1.length = (eigen evals evecs).2.length ∧
    ∀ i, i < (eigen evals evecs).1.length →
      ∃ j, j < evals.length ∧
        (eigen evals evecs).1.getD i czero = evals.getD j czero ∧
        (eigen evals evecs).2.getD i [] = evecs.getD j [] := by
  constructor
  · rw [eigen_fst, eigen_snd, List.length_map, List.length_map]
  · intro i hi
    rw [eigen_fst, List.length_map] at hi
    refine ⟨(sortIdx evals).getD i 0, ?_, ?_, ?_⟩
    · exact mem_sortIdx_lt evals
        (List.getD_eq_getElem _ _ hi ▸ List.getElem_mem hi)
    · rw [eigen_fst, List.getD_eq_getElem _ _ (by simpa using hi),
        List.getElem_map, List.getD_eq_getElem _ _ hi]
    · rw [eigen_snd, List.getD_eq_getElem _ _ (by simpa using hi),
        List.getElem_map, List.getD_eq_getElem _ _ hi]

/-- Witness for C5 at the raw pair `([5, 1], [[1,0],[0,1]])`, index 0. -/
theorem eigen_copermutation_witness :
    ∃ j, j < ([⟨5, 0⟩, ⟨1, 0⟩] : List CQ).length ∧
      (eigen [⟨5, 0⟩, ⟨1, 0⟩] [[⟨1, 0⟩], [⟨0, 1⟩]]).1.getD 0 czero =
        ([⟨5, 0⟩, ⟨1, 0⟩] : List CQ).getD j czero ∧
      (eigen [⟨5, 0⟩, ⟨1, 0⟩] [[⟨1, 0⟩], [⟨0, 1⟩]]).2.getD 0 [] =
        ([[⟨1, 0⟩], [⟨0, 1⟩]] : List (List CQ)).getD j [] :=
  (eigen_copermutation [⟨5, 0⟩, ⟨1, 0⟩] [[⟨1, 0⟩], [⟨0, 1⟩]]).2 0
    (by norm_num [eigen, sortIdx, realSpectrumOrder, argsortQ,
      pySliceRevFrom, List.insertionSort, List.orderedInsert, rankLe])

/-- C7: when every eigenvalue is exactly real with strictly positive real
part, `eigen` returns the full ranking sorted ascending by real part —
no negative block, nothing dropped (the output is a permutation of the
input). -/
theorem eigen_all_real_positive (evals : List CQ) (evecs : List (List CQ))
    (him : ∀ e ∈ evals, e.im = 0) (hre : ∀ e ∈ evals, 0 < e.re) :
    (eigen evals evecs).1 = sortedByKey (fun e => e.re) evals ∧
    (eigen evals evecs).1.Perm evals ∧
    List.Sorted (fun a b : CQ => a.re ≤ b.re) (eigen evals evecs).1 := by
  have heq : (eigen evals evecs).1 = sortedByKey (fun e => e.re) evals := by
    rw [eigen_fst]
    unfold sortIdx
    rw [if_pos ((all_im_zero_iff evals).mpr him)]
    unfold realSpectrumOrder
    rw [if_pos ((all_re_pos_iff evals).mpr hre)]
    exact argsortQ_map_getD _ _ _
  exact ⟨heq, heq ▸ sortedByKey_perm _ _, heq ▸ sortedByKey_sorted _ _⟩

/-- Witness for C7: eigenvalues `1, 5, 3` come back as `1, 3, 5`. -/
theorem eigen_all_real_positive_witness :
    (eigen [⟨1, 0⟩, ⟨5, 0⟩, ⟨3, 0⟩] [[⟨1, 0⟩], [⟨0, 1⟩], [⟨1, 1⟩]]).1 =
        sortedByKey (fun e => e.re) [⟨1, 0⟩, ⟨5, 0⟩, ⟨3, 0⟩] ∧
    (eigen [⟨1, 0⟩, ⟨5, 0⟩, ⟨3, 0⟩] [[⟨1, 0⟩], [⟨0, 1⟩], [⟨1, 1⟩]]).1.Perm
        [⟨1, 0⟩, ⟨5, 0⟩, ⟨3, 0⟩] ∧
    List.Sorted (fun a b : CQ => a.re ≤ b.re)
      (eigen [⟨1, 0⟩, ⟨5, 0⟩, ⟨3, 0⟩] [[⟨1, 0⟩], [⟨0, 1⟩], [⟨1, 1⟩]]).1 :=
  eigen_all_real_positive _ _ (by norm_num) (by norm_num)

/-- C8: the branch test of `eigen` is the exact comparison of every imaginary
part with zero: the real-spectrum computation is selected when all imaginary
parts are exactly zero, and any nonzero imaginary part — with no tolerance,
however small — selects the complex-spectrum computation. -/
theorem eigen_branch_selection (evals : List CQ) :
    ((∀ e ∈ evals, e.im = 0) → sortIdx evals = realSpectrumOrder evals) ∧
    ((∃ e ∈ evals, e.im ≠ 0) → sortIdx evals = complexSpectrumOrder evals) := by
  constructor
  · intro him
    unfold sortIdx
    rw [if_pos ((all_im_zero_iff evals).mpr him)]
  · rintro ⟨e, he, hne⟩
    have hall : ¬ (evals.all fun e => decide (e.im = 0)) = true := fun hc =>
      hne ((all_im_zero_iff evals).mp hc e he)
    unfold sortIdx
    rw [if_neg hall]

/-- Witness for C8: an imaginary part of one trillionth routes to the
complex-spectrum branch. -/
theorem eigen_branch_selection_witness :
    sortIdx [⟨1, 1 / 1000000000000⟩] =
      complexSpectrumOrder [⟨1, 1 / 1000000000000⟩] :=
  (eigen_branch_selection [⟨1, 1 / 1000000000000⟩]).2
    ⟨⟨1, 1 / 1000000000000⟩, List.mem_singleton_self _, by norm_num⟩

/-! ## Real matrices and vectors (rows of rationals) -/

/-- A real matrix as its list of rows. -/
abbrev QMat := List (List ℚ)

/-- Dot product (missing entries act as zeros, as no claim reaches them). -/
def dotQ (u v : List ℚ) : ℚ := (List.zipWith (fun a b => a * b) u v).sum

/-- Matrix-vector product `A @ v`. -/
def mulVecQ (A : QMat) (v : List ℚ) : List ℚ := A.map fun r => dotQ r v

/-- The column `j` of a matrix. -/
def colQ (A : QMat) (j : ℕ) : List ℚ := A.map fun r => r.getD j 0

/-- Matrix product `A @ B`. -/
def mmulQ (A B : QMat) : QMat :=
  A.map fun r => (List.range (B.headD []).length).map fun j => dotQ r (colQ B j)

/-- `sp.zeros((m, n))`. -/
def zerosM (m n : ℕ) : QMat := List.replicate m (List.replicate n 0)

/-- `sp.eye(n, n)`. -/
def eyeM (n : ℕ) : QMat :=
  (List.range n).map fun i =>
    (List.range n).map fun j => if i = j then (1 : ℚ) else 0

/-- `sp.hstack` of two blocks with equally many rows. -/
def hstack2 (A B : QMat) : QMat := List.zipWith (fun r s => r ++ s) A B

/-- Elementwise negation. -/
def negM (A : QMat) : QMat := A.map (List.map fun x => -x)

/-- Elementwise scaling, modelling `A * dt`. -/
def smulM (c : ℚ) (A : QMat) : QMat := A.map (List.map fun x => c * x)

/-- The transpose `A.T` (as many columns as the first row is long). -/
def transposeQ (A : QMat) : QMat :=
  (List.range (A.headD []).length).map fun j => colQ A j

/-! ## `response_system_undamped` (mdof.py lines 151-172) -/

/-- `sp.linspace(a, b, num)`: `num` evenly spaced samples from `a` to `b`
inclusive; `[a]` for `num = 1` and `[]` for `num = 0`. -/
def linspace (a b : ℚ) (num : ℕ) : List ℚ :=
  if num = 0 then []
  else if num = 1 then [a]
  else (List.range num).map fun i : ℕ =>
    a + (i : ℚ) * ((b - a) / ((num : ℚ) - 1))

/-- `int(250 * max_time)` (mdof.py line 151).  Python `int` truncates toward
zero; every claim has `max_time > 0`, where truncation is the floor. -/
def numSamples (max_time : ℚ) : ℕ := (⌊(250 : ℚ) * max_time⌋).toNat

/-- The continuous state matrix `A = [[0, I], [-pinv(M) @ K, 0]]`
(mdof.py lines 160-161); the pseudo-inverse is the external service
`pinvO`. -/
def stateMatrix (pinvO : QMat → QMat) (M K : QMat) : QMat :=
  let n := M.length
  hstack2 (zerosM n n) (eyeM n) ++ hstack2 (negM (mmulQ (pinvO M) K)) (zerosM n n)

/-- `Ad = la.expm(A * dt)` (mdof.py line 168); the matrix exponential is the
external service `expmO`, invoked once. -/
def AdOf (pinvO expmO : QMat → QMat) (M K : QMat) (dt : ℚ) : QMat :=
  expmO (smulM dt (stateMatrix pinvO M K))

/-- `Ad` applied `k` times to a state vector. -/
def iterVec (Ad : QMat) : ℕ → List ℚ → List ℚ
  | 0, v => v
  | k + 1, v => mulVecQ Ad (iterVec Ad k v)

/-- The body of the stepping loop (mdof.py lines 169-170). -/
def loopStep (Ad : QMat) (Xc : List (List ℚ)) (i : ℕ) : List (List ℚ) :=
  Xc.set (i + 1) (mulVecQ Ad (Xc.getD i []))

/-- `response_system_undamped` (mdof.py lines 151-172).  The trajectory is
held as its list of columns (each a state vector of length `2n`), matching
`X[:, i]` indexing.  `dt = t[1] - t[0]` raises `IndexError` whenever the grid
has fewer than two samples; that abort is the `none` result. -/
def response_system_undamped (pinvO expmO : QMat → QMat) (M K : QMat)
    (x0 v0 : List ℚ) (max_time : ℚ) : Option (List ℚ × List (List ℚ)) :=
  let t := linspace 0 max_time (numSamples max_time)
  if 2 ≤ t.length then
    let dt := t.getD 1 0 - t.getD 0 0
    let n := M.length
    let Ad := AdOf pinvO expmO M K dt
    let init := (List.replicate t.length (List.replicate (2 * n) (0 : ℚ))).set 0
      (x0 ++ v0)
    some (t, (List.range (t.length - 1)).foldl (loopStep Ad) init)
  else none

/-! ### Facts about the time grid and the stepping loop -/

theorem linspace_length (a b : ℚ) (num : ℕ) : (linspace a b num).length = num := by
  unfold linspace
  by_cases h0 : num = 0
  · rw [if_pos h0, h0]; rfl
  · rw [if_neg h0]
    by_cases h1 : num = 1
    · rw [if_pos h1, h1]; rfl
    · rw [if_neg h1, List.length_map, List.length_range]

theorem linspace_getD (a b : ℚ) {num : ℕ} (h2 : 2 ≤ num) {i : ℕ}
    (hi : i < num) :
    (linspace a b num).getD i 0 = a + (i : ℚ) * ((b - a) / ((num : ℚ) - 1)) := by
  unfold linspace
  rw [if_neg (by omega), if_neg (by omega),
    List.getD_eq_getElem _ _ (by simpa using hi), List.getElem_map,
    List.getElem_range]

theorem getD_set_ne {α : Type} {l : List α} {i j : ℕ} {a d : α} (h : i ≠ j) :
    (l.set i a).getD j d = l.getD j d := by
  simp [List.getD_eq_getElem?_getD, List.getElem?_set, h]

theorem getD_set_self {α : Type} {l : List α} {i : ℕ} {a d : α}
    (h : i < l.length) : (l.set i a).getD i d = a := by
  simp [List.getD_eq_getElem?_getD, List.getElem?_set, h]

theorem loop_length (Ad : QMat) (init : List (List ℚ)) (m : ℕ) :
    ((List.range m).foldl (loopStep Ad) init).length = init.length := by
  induction m with
  | zero => rfl
  | succ m ih =>
    rw [List.range_succ, List.foldl_append]
    simp only [List.foldl_cons, List.foldl_nil, loopStep, List.length_set]
    exact ih

theorem loop_getD (Ad : QMat) (init : List (List ℚ)) (s0 : List ℚ)
    (h0 : init.getD 0 [] = s0) :
    ∀ m k, k ≤ m → k < init.length →
      ((List.range m).foldl (loopStep Ad) init).getD k [] = iterVec Ad k s0 := by
  intro m
  induction m with
  | zero =>
    intro k hk _
    interval_cases k
    exact h0
  | succ m ih =>
    intro k hk hklen
    rw [List.range_succ, List.foldl_append, List.foldl_cons, List.foldl_nil]
    rcases Nat.lt_or_ge k (m + 1) with hkm | hkm
    · rw [loopStep, getD_set_ne (by omega)]
      exact ih k (by omega) hklen
    · have hk1 : k = m + 1 := by omega
      subst hk1
      have hlen : m + 1 < ((List.range m).foldl (loopStep Ad) init).length := by
        rw [loop_length]; exact hklen
      rw [loopStep, getD_set_self hlen, ih m (by omega) (by omega)]
      rfl

/-! ## Claims about the State Propagator -/

/-- C6: whenever `response_system_undamped` returns, the first trajectory
column is exactly the stacked initial state `x0 ++ v0`, and column `k` is
`Ad` applied `k` times to it, for the single matrix
`Ad = expm(A_state * dt)` built from `A_state = [[0, I], [-pinv(M) K, 0]]`
and the grid step `dt = t[1] - t[0]`. -/
theorem response_trajectory_columns
    (pinvO expmO : QMat → QMat) (M K : QMat) (x0 v0 : List ℚ) (mt : ℚ)
    (t : List ℚ) (X : List (List ℚ))
    (h : response_system_undamped pinvO expmO M K x0 v0 mt = some (t, X)) :
    X.getD 0 [] = x0 ++ v0 ∧
    ∀ k, k < X.length →
      X.getD k [] =
        iterVec (AdOf pinvO expmO M K (t.getD 1 0 - t.getD 0 0)) k
          (x0 ++ v0) := by
  simp only [response_system_undamped] at h
  split at h
  case isFalse => exact absurd h (by simp)
  case isTrue hlen =>
    rw [Option.some_inj, Prod.mk.injEq] at h
    obtain ⟨rfl, rfl⟩ := h
    have hinit0 :
        ((List.replicate (linspace 0 mt (numSamples mt)).length
          (List.replicate (2 * M.length) (0 : ℚ))).set 0 (x0 ++ v0)).getD 0 []
          = x0 ++ v0 :=
      getD_set_self (by rw [List.length_replicate]; omega)
    have hinitlen :
        ((List.replicate (linspace 0 mt (numSamples mt)).length
          (List.replicate (2 * M.length) (0 : ℚ))).set 0
            (x0 ++ v0)).length = (linspace 0 mt (numSamples mt)).length := by
      rw [List.length_set, List.length_replicate]
    constructor
    · exact loop_getD _ _ _ hinit0 _ 0 (Nat.zero_le _) (by omega)
    · intro k hk
      rw [loop_length, hinitlen] at hk
      exact loop_getD _ _ _ hinit0 _ k (by omega) (by omega)

/-- Witness for C6: a one-mass system over two time samples, with the
identity supplied for the two external services. -/
theorem response_trajectory_columns_witness :
    ([[1, 0], [1, 0]] : List (List ℚ)).getD 0 [] = [1] ++ [0] ∧
    ∀ k, k < ([[1, 0], [1, 0]] : List (List ℚ)).length →
      ([[1, 0], [1, 0]] : List (List ℚ)).getD k [] =
        iterVec (AdOf (fun _ => [[1]]) (fun _ => [[(1 : ℚ), 0], [0, 1]])
          [[1]] [[0]]
          (([0, 1 / 125] : List ℚ).getD 1 0 - ([0, 1 / 125] : List ℚ).getD 0 0))
          k ([1] ++ [0]) :=
  response_trajectory_columns (fun _ => [[1]]) (fun _ => [[(1 : ℚ), 0], [0, 1]])
    [[1]] [[0]] [1] [0] (1 / 125) [0, 1 / 125] [[1, 0], [1, 0]]
    (by
      have hns : numSamples (1 / 125) = 2 := by
        unfold numSamples
        rw [show ⌊(250 : ℚ) * (1 / 125)⌋ = 2 by norm_num]
        rfl
      simp only [response_system_undamped, hns]
      norm_num [linspace, AdOf, stateMatrix, loopStep, mulVecQ, dotQ, smulM,
        negM, mmulQ, colQ, zerosM, eyeM, hstack2, List.range_succ,
        List.replicate_succ, List.set_cons_zero, List.set_cons_succ])

/-- C3 (amended: the sample count is `int(250 * max_time)`, i.e. the
truncation, not the round, and at least two samples must result).  The grid
and trajectory have `int(250 * max_time)` columns; samples run uniformly from
0 to `max_time` inclusive with step `max_time / (count - 1)`. -/
theorem response_sample_count (pinvO expmO : QMat → QMat) (M K : QMat)
    (x0 v0 : List ℚ) (mt : ℚ) (hpos : 0 < mt) (h2 : 2 ≤ numSamples mt) :
    ∃ t X, response_system_undamped pinvO expmO M K x0 v0 mt = some (t, X) ∧
      t.length = numSamples mt ∧ X.length = numSamples mt ∧
      t.getD 0 0 = 0 ∧ t.getD (numSamples mt - 1) 0 = mt ∧
      ∀ i, i < numSamples mt →
        t.getD i 0 = (i : ℚ) * (mt / ((numSamples mt : ℚ) - 1)) := by
  have hlen : (linspace 0 mt (numSamples mt)).length = numSamples mt :=
    linspace_length 0 mt (numSamples mt)
  have hcond : 2 ≤ (linspace 0 mt (numSamples mt)).length := by omega
  have hne : ((numSamples mt : ℚ) - 1) ≠ 0 :=
    sub_ne_zero.mpr (by exact_mod_cast (show numSamples mt ≠ 1 by omega))
  refine ⟨linspace 0 mt (numSamples mt),
    (List.range ((linspace 0 mt (numSamples mt)).length - 1)).foldl
      (loopStep (AdOf pinvO expmO M K
        ((linspace 0 mt (numSamples mt)).getD 1 0 -
          (linspace 0 mt (numSamples mt)).getD 0 0)))
      ((List.replicate (linspace 0 mt (numSamples mt)).length
        (List.replicate (2 * M.length) (0 : ℚ))).set 0 (x0 ++ v0)),
    ?_, hlen, ?_, ?_, ?_, ?_⟩
  · simp only [response_system_undamped]
    rw [if_pos hcond]
  · rw [loop_length, List.length_set, List.length_replicate, hlen]
  · rw [linspace_getD 0 mt h2 (by omega)]
    simp
  · rw [linspace_getD 0 mt h2 (by omega)]
    have hcast : ((numSamples mt - 1 : ℕ) : ℚ) = (numSamples mt : ℚ) - 1 := by
      push_cast [Nat.cast_sub (by omega : 1 ≤ numSamples mt)]
      ring
    rw [hcast, zero_add, sub_zero, mul_comm, div_mul_cancel₀ _ hne]
  · intro i hi
    rw [linspace_getD 0 mt h2 hi, zero_add, sub_zero]

/-- Witness for C3: `max_time = 1/25` gives ten samples. -/
theorem response_sample_count_witness :
    ∃ t X, response_system_undamped (fun A => A) (fun A => A) [[1]] [[1]]
        [1] [0] (1 / 25) = some (t, X) ∧
      t.length = numSamples (1 / 25) ∧ X.length = numSamples (1 / 25) ∧
      t.getD 0 0 = 0 ∧ t.getD (numSamples (1 / 25) - 1) 0 = 1 / 25 ∧
      ∀ i, i < numSamples (1 / 25) →
        t.getD i 0 = (i : ℚ) * ((1 / 25) / ((numSamples (1 / 25) : ℚ) - 1)) :=
  response_sample_count (fun A => A) (fun A => A) [[1]] [[1]] [1] [0] (1 / 25)
    (by norm_num) (by norm_num [numSamples])

/-- Counterexample to C3 as stated: at `max_time = 13/1250` the code computes
`int(250 * 13/1250) = int(2.6) = 2` columns, while `round(250 * 13/1250) = 3`;
the sample count is the truncation, not the round. -/
theorem response_sample_count_counterexample :
    Option.map (fun p => p.2.length)
      (response_system_undamped (fun A => A) (fun A => A) [[1]] [[0]] [0] [0]
        (13 / 1250)) = some 2 ∧
    round ((250 : ℚ) * (13 / 1250)) = 3 ∧ (2 : ℤ) ≠ 3 := by
  refine ⟨?_, ?_, by norm_num⟩
  · have hns : numSamples (13 / 1250) = 2 := by
      unfold numSamples
      rw [show ⌊(250 : ℚ) * (13 / 1250)⌋ = 2 by norm_num]
      rfl
    simp only [response_system_undamped, hns]
    norm_num [linspace, AdOf, stateMatrix, loopStep, mulVecQ, dotQ, smulM,
      negM, mmulQ, colQ, zerosM, eyeM, hstack2, List.range_succ,
      List.replicate_succ, List.set_cons_zero, List.set_cons_succ]
  · rw [round_eq]
    norm_num

/-- C10: for `0 < max_time < 0.008` the grid `linspace(0, max_time,
int(250*max_time))` has fewer than two samples, so the step computation
`t[1] - t[0]` indexes past the end of the grid and the call aborts (returns
no trajectory), although `max_time > 0` holds. -/
theorem response_aborts_on_short_grid (pinvO expmO : QMat → QMat)
    (M K : QMat) (x0 v0 : List ℚ) (mt : ℚ) (h1 : 0 < mt) (h2 : mt < 1 / 125) :
    response_system_undamped pinvO expmO M K x0 v0 mt = none := by
  have hnum : numSamples mt ≤ 1 := by
    unfold numSamples
    have h250 : (250 : ℚ) * mt < 2 := by
      have := mul_lt_mul_of_pos_left h2 (show (0 : ℚ) < 250 by norm_num)
      linarith
    have hfl : ⌊(250 : ℚ) * mt⌋ < 2 := Int.floor_lt.mpr (by exact_mod_cast h250)
    omega
  simp only [response_system_undamped]
  rw [if_neg]
  rw [linspace_length]
  omega

/-- Witness for C10: `max_time = 1/250` yields a one-sample grid and no
trajectory. -/
theorem response_aborts_on_short_grid_witness :
    response_system_undamped (fun A => A) (fun A => A) [[1]] [[1]] [1] [1]
      (1 / 250) = none :=
  response_aborts_on_short_grid (fun A => A) (fun A => A) [[1]] [[1]] [1] [1]
    (1 / 250) (by norm_num) (by norm_num)

/-! ## `modes_system_undamped` (mdof.py lines 99-105)

`la.cholesky(M)` is called with scipy's default `lower=False`: it reads the
upper triangle of `M` and returns the UPPER triangular factor `U` with
`M = Uᵀ U`, raising `LinAlgError` when a pivot is not positive.  The model
computes the same factor over exact rationals; `none` stands for the raise
(and for pivots whose square root leaves the rationals, which cannot arise in
the concrete inputs used below). -/

/-- The entry `A[i][j]`, with zero past the ends. -/
def entQ (A : QMat) (i j : ℕ) : ℚ := (A.getD i []).getD j 0

/-- All rows as long as the matrix is tall. -/
def isSquareQ (A : QMat) : Prop := ∀ r ∈ A, r.length = A.length

instance (A : QMat) : Decidable (isSquareQ A) := by
  unfold isSquareQ; infer_instance

/-- The exact nonnegative rational square root, when one exists.  (A reduced
fraction is a square exactly when numerator and denominator both are.) -/
def ratSqrt (q : ℚ) : Option ℚ :=
  if 0 ≤ q then
    if Nat.sqrt q.num.toNat * Nat.sqrt q.num.toNat = q.num.toNat ∧
        Nat.sqrt q.den * Nat.sqrt q.den = q.den then
      some ((Nat.sqrt q.num.toNat : ℚ) / (Nat.sqrt q.den : ℚ))
    else none
  else none

/-- `ratSqrt` as a total function (zero when no exact root exists; every use
below is guarded by `cholOk`, which demands success). -/
def sqrt0 (q : ℚ) : ℚ := (ratSqrt q).getD 0

theorem ratSqrt_spec {q r : ℚ} (h : ratSqrt q = some r) : r * r = q ∧ 0 ≤ r := by
  unfold ratSqrt at h
  split at h
  case isFalse => exact absurd h (by simp)
  case isTrue hq =>
    split at h
    case isFalse => exact absurd h (by simp)
    case isTrue hsq =>
      obtain ⟨hn, hd⟩ := hsq
      rw [Option.some_inj] at h
      subst h
      constructor
      · have hden : ((q.den : ℚ)) ≠ 0 := by
          exact_mod_cast q.den_nz
        rw [div_mul_div_comm]
        rw [show ((Nat.sqrt q.num.toNat : ℚ)) * (Nat.sqrt q.num.toNat : ℚ)
            = ((Nat.sqrt q.num.toNat * Nat.sqrt q.num.toNat : ℕ) : ℚ) by
          push_cast; ring]
        rw [show ((Nat.sqrt q.den : ℚ)) * (Nat.sqrt q.den : ℚ)
            = ((Nat.sqrt q.den * Nat.sqrt q.den : ℕ) : ℚ) by
          push_cast; ring]
        rw [hn, hd]
        rw [show ((q.num.toNat : ℚ)) = ((q.num : ℤ) : ℚ) by
          exact_mod_cast congrArg (fun z : ℤ => (z : ℚ))
            (Int.toNat_of_nonneg (Rat.num_nonneg.mpr hq))]
        exact Rat.num_div_den q
      · positivity

theorem sqrt0_pos {q : ℚ} (hq : 0 < q) (hs : (ratSqrt q).isSome) :
    0 < sqrt0 q ∧ sqrt0 q * sqrt0 q = q := by
  obtain ⟨r, hr⟩ := Option.isSome_iff_exists.mp hs
  obtain ⟨hrr, hrn⟩ := ratSqrt_spec hr
  have h0 : sqrt0 q = r := by rw [sqrt0, hr]; rfl
  rw [h0]
  refine ⟨?_, hrr⟩
  rcases lt_or_eq_of_le hrn with h | h
  · exact h
  · exfalso; rw [← h] at hrr; simp at hrr; rw [← hrr] at hq; simp at hq

/-- `rs` holds the already-computed rows `0 … i-1` of the factor; this is the
inner product of their columns `i` and `j`, i.e. `Σ_{k<i} U[k][i]·U[k][j]`. -/
def cholSum (rs : QMat) (i j : ℕ) : ℚ :=
  (rs.map fun r => r.getD i 0 * r.getD j 0).sum

/-- The `i`-th pivot `M[i][i] - Σ_{k<i} U[k][i]²`. -/
def cholPivot (M : QMat) (rs : QMat) (i : ℕ) : ℚ := entQ M i i - cholSum rs i i

/-- Entry `j` of row `i` of the upper Cholesky factor, given the previous
rows `rs`: zero below the diagonal, the pivot root on it,
`(M[i][j] - Σ_{k<i} U[k][i]·U[k][j]) / U[i][i]` above it. -/
def cholEntry (M : QMat) (rs : QMat) (i j : ℕ) : ℚ :=
  if j < i then 0
  else if j = i then sqrt0 (cholPivot M rs i)
  else (entQ M i j - cholSum rs i j) / sqrt0 (cholPivot M rs i)

/-- The first `m` rows of the upper Cholesky factor of `M`. -/
def cholRowsAux (M : QMat) : ℕ → QMat
  | 0 => []
  | m + 1 =>
    let rs := cholRowsAux M m
    rs ++ [(List.range M.length).map (cholEntry M rs m)]

/-- Success condition of `la.cholesky(M)`: square input and every pivot
positive with an exact rational root. -/
def cholOk (M : QMat) : Bool :=
  decide (isSquareQ M) &&
    ((List.range M.length).all fun i =>
      decide (0 < cholPivot M (cholRowsAux M i) i) &&
        (ratSqrt (cholPivot M (cholRowsAux M i) i)).isSome)

/-- `L = la.cholesky(M)` (mdof.py line 99): scipy's default upper factor. -/
def cholesky (M : QMat) : Option QMat :=
  if cholOk M then some (cholRowsAux M M.length) else none

/-- Zero strictly below the diagonal (out-of-range entries read as zero). -/
def isUpperTriangularQ (A : QMat) : Prop := ∀ i j, j < i → entQ A i j = 0

/-! ### The computed factor is upper triangular with `Uᵀ U = M` -/

theorem cholRowsAux_length (M : QMat) (m : ℕ) : (cholRowsAux M m).length = m := by
  induction m with
  | zero => rfl
  | succ m ih =>
    show (cholRowsAux M m ++ _).length = m + 1
    rw [List.length_append, ih]
    rfl

theorem getD_append_last {α : Type} (l : List α) (x d : α) :
    (l ++ [x]).getD l.length d = x := by
  rw [List.getD_eq_getElem?_getD, List.getElem?_append_right (le_refl _)]
  simp

theorem cholRowsAux_getD (M : QMat) :
    ∀ m i, i < m → (cholRowsAux M m).getD i [] =
      (List.range M.length).map (cholEntry M (cholRowsAux M i) i) := by
  intro m
  induction m with
  | zero => intro i hi; omega
  | succ m ih =>
    intro i hi
    show (cholRowsAux M m ++
      [(List.range M.length).map (cholEntry M (cholRowsAux M m) m)]).getD i [] = _
    rcases Nat.lt_or_ge i m with him | him
    · rw [List.getD_append _ _ _ _ (by rw [cholRowsAux_length]; exact him)]
      exact ih i him
    · have hi' : i = m := by omega
      subst hi'
      have hx := getD_append_last (cholRowsAux M i)
        ((List.range M.length).map (cholEntry M (cholRowsAux M i) i))
        ([] : List ℚ)
      rw [cholRowsAux_length M i] at hx
      exact hx

theorem entQ_cholRowsAux (M : QMat) {n i j : ℕ} (hin : i < n)
    (hjn : j < M.length) :
    entQ (cholRowsAux M n) i j = cholEntry M (cholRowsAux M i) i j := by
  unfold entQ
  rw [cholRowsAux_getD M n i hin,
    List.getD_eq_getElem _ _ (by simpa using hjn), List.getElem_map,
    List.getElem_range]

theorem cholRowsAux_triangular (M : QMat) (n : ℕ) :
    isUpperTriangularQ (cholRowsAux M n) := by
  intro i j hji
  by_cases hin : i < n
  · by_cases hjn : j < M.length
    · rw [entQ_cholRowsAux M hin hjn]
      unfold cholEntry
      rw [if_pos hji]
    · unfold entQ
      rw [cholRowsAux_getD M n i hin,
        show ((List.range M.length).map
            (cholEntry M (cholRowsAux M i) i)).getD j 0 = 0 from
          List.getD_eq_default _ _ (by rw [List.length_map, List.length_range]; omega)]
  · unfold entQ
    rw [show (cholRowsAux M n).getD i [] = [] from
      List.getD_eq_default _ _ (by rw [cholRowsAux_length]; omega)]
    rfl

theorem sum_map_getD (l : List (List ℚ)) (f : List ℚ → ℚ) :
    (l.map f).sum = ((List.range l.length).map fun k => f (l.getD k [])).sum := by
  induction l with
  | nil => rfl
  | cons a l ih =>
    rw [List.map_cons, List.sum_cons, List.length_cons, List.range_succ_eq_map,
      List.map_cons, List.sum_cons, List.map_map]
    congr 1

theorem range_sum_tail_zero (f : ℕ → ℚ) (m : ℕ) :
    ∀ n, m ≤ n → (∀ k, m ≤ k → k < n → f k = 0) →
      ((List.range n).map f).sum = ((List.range m).map f).sum := by
  intro n
  induction n with
  | zero =>
    intro hmn _
    have : m = 0 := by omega
    subst this; rfl
  | succ n ih =>
    intro hmn h0
    rcases Nat.lt_or_ge m (n + 1) with hlt | hge
    · rw [List.range_succ, List.map_append, List.sum_append,
        ih (by omega) (fun k hk1 hk2 => h0 k hk1 (by omega))]
      simp [h0 n (by omega) (by omega)]
    · have : m = n + 1 := by omega
      subst this; rfl

theorem cholOk_square (M : QMat) (h : cholOk M = true) : isSquareQ M := by
  unfold cholOk at h
  rw [Bool.and_eq_true, decide_eq_true_eq] at h
  exact h.1

theorem cholOk_pivot (M : QMat) (h : cholOk M = true) {i : ℕ}
    (hi : i < M.length) :
    0 < cholPivot M (cholRowsAux M i) i ∧
      (ratSqrt (cholPivot M (cholRowsAux M i) i)).isSome := by
  unfold cholOk at h
  rw [Bool.and_eq_true] at h
  have h2 := List.all_eq_true.mp h.2 i (List.mem_range.mpr hi)
  rw [Bool.and_eq_true, decide_eq_true_eq] at h2
  exact h2

theorem chol_column_sum (M : QMat) (h : cholOk M = true) {a b : ℕ}
    (hab : a ≤ b) (hb : b < M.length) :
    ((List.range M.length).map fun k =>
      entQ (cholRowsAux M M.length) k a * entQ (cholRowsAux M M.length) k b).sum
    = entQ M a b := by
  have ha : a < M.length := lt_of_le_of_lt hab hb
  have htail : ((List.range M.length).map fun k =>
        entQ (cholRowsAux M M.length) k a *
          entQ (cholRowsAux M M.length) k b).sum
      = ((List.range (a + 1)).map fun k =>
        entQ (cholRowsAux M M.length) k a *
          entQ (cholRowsAux M M.length) k b).sum :=
    range_sum_tail_zero _ (a + 1) M.length (by omega) (fun k hk1 _ => by
      rw [cholRowsAux_triangular M M.length k a (by omega), zero_mul])
  rw [htail, List.range_succ, List.map_append, List.sum_append]
  have hpre : ((List.range a).map fun k =>
        entQ (cholRowsAux M M.length) k a *
          entQ (cholRowsAux M M.length) k b).sum
      = cholSum (cholRowsAux M a) a b := by
    unfold cholSum
    rw [sum_map_getD, cholRowsAux_length]
    refine congrArg List.sum (List.map_congr_left ?_)
    intro k hk
    rw [List.mem_range] at hk
    show entQ (cholRowsAux M M.length) k a * entQ (cholRowsAux M M.length) k b
      = _
    unfold entQ
    rw [cholRowsAux_getD M M.length k (by omega), cholRowsAux_getD M a k hk]
  rw [hpre]
  obtain ⟨hp, hs⟩ := cholOk_pivot M h ha
  obtain ⟨hr0, hrr⟩ := sqrt0_pos hp hs
  have hUa : entQ (cholRowsAux M M.length) a a
      = sqrt0 (cholPivot M (cholRowsAux M a) a) := by
    rw [entQ_cholRowsAux M ha ha]
    unfold cholEntry
    rw [if_neg (lt_irrefl a), if_pos rfl]
  rcases eq_or_lt_of_le hab with rfl | hlt
  · rw [List.map_cons, List.map_nil, List.sum_cons, List.sum_nil, add_zero,
      hUa, hrr]
    unfold cholPivot
    ring
  · have hUb : entQ (cholRowsAux M M.length) a b
        = (entQ M a b - cholSum (cholRowsAux M a) a b) /
            sqrt0 (cholPivot M (cholRowsAux M a) a) := by
      rw [entQ_cholRowsAux M ha hb]
      unfold cholEntry
      rw [if_neg (by omega), if_neg (by omega)]
    rw [List.map_cons, List.map_nil, List.sum_cons, List.sum_nil, add_zero,
      hUa, hUb, mul_comm, div_mul_cancel₀ _ (ne_of_gt hr0)]
    ring

theorem dotQ_col_col (A : QMat) (a b : ℕ) :
    dotQ (colQ A a) (colQ A b) =
    ((List.range A.length).map fun k => entQ A k a * entQ A k b).sum := by
  induction A with
  | nil => rfl
  | cons r A ih =>
    unfold dotQ colQ at *
    rw [List.map_cons, List.map_cons, List.zipWith_cons_cons, List.sum_cons,
      List.length_cons, List.range_succ_eq_map, List.map_cons, List.sum_cons,
      List.map_map]
    congr 1

theorem headD_eq_getD {α : Type} (l : List α) (d : α) :
    l.headD d = l.getD 0 d := by
  cases l <;> rfl

theorem cholRowsAux_row_length (M : QMat) {n i : ℕ} (hin : i < n) :
    ((cholRowsAux M n).getD i []).length = M.length := by
  rw [cholRowsAux_getD M n i hin, List.length_map, List.length_range]

theorem cholesky_eq {M U : QMat} (h : cholesky M = some U) :
    U = cholRowsAux M M.length ∧ cholOk M = true := by
  unfold cholesky at h
  split at h
  case isTrue hok => exact ⟨(Option.some_inj.mp h).symm, hok⟩
  case isFalse => exact absurd h (by simp)

/-- `la.cholesky` with scipy's default returns an UPPER triangular `U` with
`Uᵀ U = M` (for symmetric `M`) — not a lower factor `L` with `L Lᵀ = M`. -/
theorem cholesky_spec (M U : QMat) (hsym : ∀ i j, entQ M i j = entQ M j i)
    (h : cholesky M = some U) :
    isUpperTriangularQ U ∧ mmulQ (transposeQ U) U = M := by
  obtain ⟨hUeq, hok⟩ := cholesky_eq h
  subst hUeq
  refine ⟨cholRowsAux_triangular M M.length, ?_⟩
  rcases Nat.eq_zero_or_pos M.length with h0 | hpos
  · have hM : M = [] := List.length_eq_zero.mp h0
    subst hM
    rfl
  · have hUlen : (cholRowsAux M M.length).length = M.length :=
      cholRowsAux_length M M.length
    have hhead : ((cholRowsAux M M.length).headD []).length = M.length := by
      rw [headD_eq_getD, cholRowsAux_row_length M hpos]
    have hmm_rows : mmulQ (transposeQ (cholRowsAux M M.length))
        (cholRowsAux M M.length) =
        (List.range M.length).map fun a => (List.range M.length).map fun b =>
          dotQ (colQ (cholRowsAux M M.length) a)
            (colQ (cholRowsAux M M.length) b) := by
      unfold mmulQ transposeQ
      rw [hhead, List.map_map]
      rfl
    rw [hmm_rows]
    refine List.ext_getElem (by rw [List.length_map, List.length_range]) ?_
    intro a h1 h2
    have ha : a < M.length := by
      rw [List.length_map, List.length_range] at h1
      exact h1
    rw [List.getElem_map, List.getElem_range]
    have hrowlen : M[a].length = M.length :=
      cholOk_square M hok M[a] (List.getElem_mem h2)
    refine List.ext_getElem (by rw [List.length_map, List.length_range,
      hrowlen]) ?_
    intro b hb1 hb2
    have hb : b < M.length := by
      rw [List.length_map, List.length_range] at hb1
      exact hb1
    rw [List.getElem_map, List.getElem_range]
    have hM_ent : M[a][b] = entQ M a b := by
      unfold entQ
      rw [List.getD_eq_getElem _ _ ha, List.getD_eq_getElem _ _ hb2]
    rw [hM_ent, dotQ_col_col, hUlen]
    rcases le_or_lt a b with hab | hba
    · exact chol_column_sum M hok hab hb
    · have hswap : ((List.range M.length).map fun k =>
            entQ (cholRowsAux M M.length) k a *
              entQ (cholRowsAux M M.length) k b).sum
          = ((List.range M.length).map fun k =>
            entQ (cholRowsAux M M.length) k b *
              entQ (cholRowsAux M M.length) k a).sum :=
        congrArg List.sum (List.map_congr_left fun k _ => mul_comm _ _)
      rw [hswap, chol_column_sum M hok (le_of_lt hba) ha, hsym]

/-! ### `Linv = la.inv(L)` (mdof.py line 100)

The inverse is the external dense solver's; its exact-arithmetic semantics is
the unique matrix inverse, computed here by the adjugate formula, with `none`
for the singular (or non-square) inputs on which `la.inv` raises. -/

/-- Laplace expansion of the determinant along the first row. -/
def detQ (A : QMat) : ℚ :=
  match A with
  | [] => 1
  | r :: rs =>
    ((List.range r.length).map fun j =>
      (-1 : ℚ) ^ j * r.getD j 0 *
        detQ (rs.map fun row => row.eraseIdx j)).sum
termination_by A.length
decreasing_by simp only [List.length_map, List.length_cons]; omega

/-- The minor of `A` with row `r` and column `c` removed. -/
def minorQ (A : QMat) (r c : ℕ) : QMat :=
  (A.eraseIdx r).map fun row => row.eraseIdx c

/-- The adjugate (transposed cofactor) matrix. -/
def adjugateQ (A : QMat) : QMat :=
  (List.range A.length).map fun i =>
    (List.range A.length).map fun j =>
      (-1 : ℚ) ^ (i + j) * detQ (minorQ A j i)

/-- `la.inv(A)`: the inverse `det(A)⁻¹ · adj(A)` when `A` is square with
nonzero determinant, `none` (the raise) otherwise. -/
def matInvQ (A : QMat) : Option QMat :=
  if isSquareQ A ∧ detQ A ≠ 0 then some (smulM (detQ A)⁻¹ (adjugateQ A))
  else none

/-! ## Complex matrices (for the sorted eigenvectors) -/

/-- Complex addition. -/
def addC (x y : CQ) : CQ := ⟨x.re + y.re, x.im + y.im⟩

/-- Complex multiplication. -/
def mulC (x y : CQ) : CQ :=
  ⟨x.re * y.re - x.im * y.im, x.re * y.im + x.im * y.re⟩

/-- A complex matrix as its list of rows. -/
abbrev CMat := List (List CQ)

/-- Sum of a list of complex scalars. -/
def sumC (l : List CQ) : CQ := l.foldr addC czero

/-- Complex dot product. -/
def dotC (u v : List CQ) : CQ := sumC (List.zipWith mulC u v)

/-- The column `j` of a complex matrix. -/
def colC (A : CMat) (j : ℕ) : List CQ := A.map fun r => r.getD j czero

/-- Complex matrix product. -/
def mmulC (A B : CMat) : CMat :=
  A.map fun r => (List.range (B.headD []).length).map fun j => dotC r (colC B j)

/-- Complex transpose `P.T` (plain, no conjugation — as numpy's `.T`). -/
def transposeC (A : CMat) : CMat :=
  (List.range (A.headD []).length).map fun j => colC A j

/-- Real-to-complex embedding of a scalar. -/
def qToC (x : ℚ) : CQ := ⟨x, 0⟩

/-- Real-to-complex embedding of a matrix. -/
def matQtoC (A : QMat) : CMat := A.map (List.map qToC)

/-- The complex identity matrix. -/
def eyeC (n : ℕ) : CMat := matQtoC (eyeM n)

/-! ## `modes_system_undamped` (mdof.py lines 99-105) -/

/-- The whitened matrix `Linv @ K @ Linv.T` (mdof.py line 101). -/
def whitened (Linv K : QMat) : QMat :=
  mmulQ (mmulQ Linv K) (transposeQ Linv)

/-- `modes_system_undamped` (mdof.py lines 99-105).  The eigensolver behind
`eigen` is the external service `eigO` returning the raw (unordered)
decomposition of the whitened matrix; `eigen`'s sorting is applied to it.
`none` stands for the failure of the Cholesky factorization or of the
explicit inverse. -/
def modes_system_undamped (eigO : QMat → List CQ × CMat) (M K : QMat) :
    Option (List CQ × CMat × CMat × CMat) :=
  (cholesky M).bind fun L =>
    (matInvQ L).map fun Linv =>
      let raw := eigO (whitened Linv K)
      let lamP := eigen raw.1 raw.2
      (lamP.1, lamP.2, mmulC (matQtoC Linv) lamP.2,
        mmulC (transposeC lamP.2) (matQtoC Linv))

/-! ## Claims about the Modal Decomposer -/

/-- C2 (amended: the factor computed in step 1 is the UPPER Cholesky factor
`L` with `M = Lᵀ·L` — scipy's `cholesky` default — not a lower factor with
`M = L·Lᵀ`).  The rest is as claimed: the whitened matrix is
`Linv @ K @ Linv.T` with `Linv = inv(L)`, its raw eigen-decomposition is
sorted by `eigen`, and the returned mode shapes are `S = Linv·P`,
`Sinv = Pᵀ·Linv`. -/
theorem modes_structure (eigO : QMat → List CQ × CMat) (M K L Linv : QMat)
    (hsym : ∀ i j, entQ M i j = entQ M j i)
    (hchol : cholesky M = some L) (hinv : matInvQ L = some Linv) :
    isUpperTriangularQ L ∧ mmulQ (transposeQ L) L = M ∧
    modes_system_undamped eigO M K = some
      ((eigen (eigO (whitened Linv K)).1 (eigO (whitened Linv K)).2).1,
       (eigen (eigO (whitened Linv K)).1 (eigO (whitened Linv K)).2).2,
       mmulC (matQtoC Linv)
         (eigen (eigO (whitened Linv K)).1 (eigO (whitened Linv K)).2).2,
       mmulC (transposeC
           (eigen (eigO (whitened Linv K)).1 (eigO (whitened Linv K)).2).2)
         (matQtoC Linv)) := by
  obtain ⟨htri, hfac⟩ := cholesky_spec M L hsym hchol
  refine ⟨htri, hfac, ?_⟩
  unfold modes_system_undamped
  rw [hchol, Option.some_bind, hinv, Option.map_some']

/-- Shared evaluation: the factor scipy's default returns at
`M = [[1,1],[1,2]]`. -/
theorem cholesky_example : cholesky [[1, 1], [1, 2]] = some [[1, 1], [0, 1]] := by
  norm_num [cholesky, cholOk, cholRowsAux, cholEntry, cholSum, cholPivot,
    entQ, sqrt0, ratSqrt, isSquareQ, Nat.sqrt, List.range_succ]

/-- Shared evaluation: the determinant of that factor. -/
theorem detQ_example : detQ [[1, 1], [0, 1]] = 1 := by
  norm_num [detQ, List.range_succ, List.eraseIdx]

/-- Shared evaluation: the inverse of that factor. -/
theorem matInvQ_example : matInvQ [[1, 1], [0, 1]] = some [[1, -1], [0, 1]] := by
  unfold matInvQ
  rw [if_pos ⟨by decide, by rw [detQ_example]; norm_num⟩]
  rw [detQ_example]
  norm_num [adjugateQ, minorQ, smulM, detQ, List.range_succ, List.eraseIdx]

/-- Shared evaluation: `M = [[1,1],[1,2]]` is symmetric (entrywise, with
out-of-range entries zero). -/
theorem symm_example : ∀ i j, entQ [[1, 1], [1, 2]] i j
    = entQ [[1, 1], [1, 2]] j i := by
  intro i j
  rcases i with _ | _ | i <;> rcases j with _ | _ | j <;>
    simp [entQ, List.getD]

/-- Witness for C2 at `M = [[1,1],[1,2]]`, `K = [[4,0],[0,4]]` (any
eigensolver service). -/
theorem modes_structure_witness :
    isUpperTriangularQ [[1, 1], [0, 1]] ∧
    mmulQ (transposeQ [[1, 1], [0, 1]]) [[1, 1], [0, 1]] = [[1, 1], [1, 2]] ∧
    modes_system_undamped (fun _ => ([], [])) [[1, 1], [1, 2]] [[4, 0], [0, 4]]
      = some
      ((eigen ((fun _ : QMat => (([] : List CQ), ([] : CMat)))
          (whitened [[1, -1], [0, 1]] [[4, 0], [0, 4]])).1
        ((fun _ : QMat => (([] : List CQ), ([] : CMat)))
          (whitened [[1, -1], [0, 1]] [[4, 0], [0, 4]])).2).1,
       (eigen ((fun _ : QMat => (([] : List CQ), ([] : CMat)))
          (whitened [[1, -1], [0, 1]] [[4, 0], [0, 4]])).1
        ((fun _ : QMat => (([] : List CQ), ([] : CMat)))
          (whitened [[1, -1], [0, 1]] [[4, 0], [0, 4]])).2).2,
       mmulC (matQtoC [[1, -1], [0, 1]])
         (eigen ((fun _ : QMat => (([] : List CQ), ([] : CMat)))
            (whitened [[1, -1], [0, 1]] [[4, 0], [0, 4]])).1
          ((fun _ : QMat => (([] : List CQ), ([] : CMat)))
            (whitened [[1, -1], [0, 1]] [[4, 0], [0, 4]])).2).2,
       mmulC (transposeC
           (eigen ((fun _ : QMat => (([] : List CQ), ([] : CMat)))
              (whitened [[1, -1], [0, 1]] [[4, 0], [0, 4]])).1
            ((fun _ : QMat => (([] : List CQ), ([] : CMat)))
              (whitened [[1, -1], [0, 1]] [[4, 0], [0, 4]])).2).2)
         (matQtoC [[1, -1], [0, 1]])) :=
  modes_structure (fun _ => ([], [])) [[1, 1], [1, 2]] [[4, 0], [0, 4]]
    [[1, 1], [0, 1]] [[1, -1], [0, 1]] symm_example cholesky_example
    matInvQ_example

/-- Counterexample to C2 as stated: at `M = [[1,1],[1,2]]` the factor the
code's `la.cholesky(M)` computes is `[[1,1],[0,1]]`: it has a nonzero entry
above the diagonal (so it is no lower factor) and `L·Lᵀ ≠ M`, while
`Lᵀ·L = M`. -/
theorem cholesky_not_lower_counterexample :
    cholesky [[1, 1], [1, 2]] = some [[1, 1], [0, 1]] ∧
    entQ [[1, 1], [0, 1]] 0 1 ≠ 0 ∧
    mmulQ [[1, 1], [0, 1]] (transposeQ [[1, 1], [0, 1]]) ≠ [[1, 1], [1, 2]] ∧
    mmulQ (transposeQ [[1, 1], [0, 1]]) [[1, 1], [0, 1]] = [[1, 1], [1, 2]] := by
  refine ⟨cholesky_example, by norm_num [entQ], ?_, ?_⟩ <;>
    norm_num [mmulQ, transposeQ, colQ, dotQ, entQ, List.range_succ]

/-- The exact behavior of the external eigensolver `la.eig` on a 1×1 real
matrix `[[c]]`: the single eigenvalue `c` with normalized eigenvector
`[1.0]`. -/
def eig1x1 (A : QMat) : List CQ × CMat := ([⟨entQ A 0 0, 0⟩], [[⟨1, 0⟩]])

/-- C9 (code bug): at `M = [[4]]`, `K = [[4]]` the code returns
`S = [[1/2]]` and `Sinv = [[1/2]]`, so `Sinv·S = [[1/4]]` — not the identity,
although the function's own docstring says `Sinv` is `S^-1` (the modal
transformation): `Sinv = P.T @ Linv` should have been `P.T @ L`. -/
theorem modes_sinv_not_inverse :
    modes_system_undamped eig1x1 [[4]] [[4]]
      = some ([⟨1, 0⟩], [[⟨1, 0⟩]], [[⟨1 / 2, 0⟩]], [[⟨1 / 2, 0⟩]]) ∧
    mmulC [[⟨(1 : ℚ) / 2, 0⟩]] [[⟨(1 : ℚ) / 2, 0⟩]] = [[⟨1 / 4, 0⟩]] ∧
    mmulC [[⟨(1 : ℚ) / 2, 0⟩]] [[⟨(1 : ℚ) / 2, 0⟩]] ≠ eyeC 1 := by
  have hc : cholesky [[4]] = some [[2]] := by
    norm_num [cholesky, cholOk, cholRowsAux, cholEntry, cholSum, cholPivot,
      entQ, sqrt0, ratSqrt, isSquareQ, List.range_succ,
      show Nat.sqrt 4 = 2 by rw [show (4 : ℕ) = 2 * 2 from rfl, Nat.sqrt_eq],
      show ((4 : ℚ).num = 4) from rfl, show ((4 : ℚ).den = 1) from rfl,
      show Int.toNat 4 = 4 from rfl, show Nat.sqrt 1 = 1 from rfl]
  have hi : matInvQ [[2]] = some [[1 / 2]] := by
    unfold matInvQ
    rw [if_pos ⟨by decide, by norm_num [detQ, List.range_succ, List.eraseIdx]⟩]
    norm_num [adjugateQ, minorQ, smulM, detQ, List.range_succ, List.eraseIdx]
  refine ⟨?_, ?_, ?_⟩
  · unfold modes_system_undamped
    rw [hc, Option.some_bind, hi, Option.map_some']
    norm_num [whitened, mmulQ, transposeQ, colQ, dotQ, eig1x1, entQ,
      eigen, sortIdx, realSpectrumOrder, argsortQ, pySliceRevFrom,
      List.insertionSort, List.orderedInsert, rankLe, czero, mmulC, matQtoC,
      transposeC, colC, dotC, sumC, mulC, addC, qToC, List.range_succ,
      CQ.mk.injEq]
  · norm_num [mmulC, colC, dotC, sumC, mulC, addC, czero, List.range_succ,
      CQ.mk.injEq]
  · norm_num [mmulC, colC, dotC, sumC, mulC, addC, czero, eyeC, eyeM,
      matQtoC, qToC, List.range_succ, CQ.mk.injEq]

end Mdof
